import Mathlib

/-!
# SRTran batch translation orchestrator — verification development

A shallow embedding of the SRTran subtitle translation core
(`internal/translate/service.go`, `lmstudio.go`, `googleai.go`, the
OpenRouter and OpenAI adapters, and the SRT writer) together with
proofs about its batching, retry, backoff, validation and output
behaviour.

Go strings are modelled as `List Char` (`GoStr`); the Go standard
library functions used by the source (`strings.Split`, `strings.Index`,
`strings.Contains`, `strings.Count`, `strings.TrimSpace`,
`strings.Join`) are defined here with the same semantics.  Network
calls are modelled as oracles (`BackendFun`, `OREnv`): deterministic
functions of the global call index, so that a run of the orchestrator
is a pure computation.  Real time is not modelled; backoff sleeps are
recorded in a trace of nanosecond durations, and context cancellation
is a boolean flag at each wait point (all runs below use an
uncancelled context).  Loops that Go bounds by an attempt counter are
written with an explicit `remaining` fuel argument equal to
`maxAttempts - attempt`, so every definition is structurally recursive
and computable by the kernel.
-/

namespace SRTran

/-- Go strings, modelled as lists of characters. -/
abbrev GoStr := List Char

/-- Shorthand to write Go string literals. -/
def toG (s : String) : GoStr := s.toList

/-- Go `unicode.IsSpace` restricted to the ASCII range (space, tab,
newline, vertical tab, form feed, carriage return). -/
def isSpaceChar (c : Char) : Bool :=
  c = ' ' || c = '\t' || c = '\n' || c = '\x0b' || c = '\x0c' || c = '\r'

/-- Left half of Go `strings.TrimSpace`. -/
def trimLeft (s : GoStr) : GoStr := s.dropWhile isSpaceChar

/-- Right half of Go `strings.TrimSpace`. -/
def trimRight (s : GoStr) : GoStr := (s.reverse.dropWhile isSpaceChar).reverse

/-- Go `strings.TrimSpace`. -/
def goTrim (s : GoStr) : GoStr := trimRight (trimLeft s)

/-- Go `strings.Contains(s, pat)`: `pat` occurs as a substring of `s`. -/
def containsSub (pat : GoStr) : GoStr → Bool
  | [] => pat.isPrefixOf []
  | c :: rest => pat.isPrefixOf (c :: rest) || containsSub pat rest

/-- Go `strings.Index(s, pat)`: index of the leftmost occurrence of
`pat` in `s`, `none` for Go's `-1`. -/
def goIndex (pat : GoStr) : GoStr → Option Nat
  | [] => if pat.isPrefixOf [] then some 0 else none
  | c :: rest =>
    if pat.isPrefixOf (c :: rest) then some 0
    else (goIndex pat rest).map (· + 1)

/-- Go `strings.Count(s, pat)` for a one-character pattern: the number
of occurrences of the character. -/
def countChar (c : Char) (s : GoStr) : Nat := s.count c

/-- Worker for `goSplit`: scans the string left to right; `skip` is the
number of characters of an already-matched separator still to consume,
`cur` the current piece reversed, `acc` the finished pieces.
Structurally recursive so the kernel can evaluate it. -/
def goSplitAux (sep : GoStr) (skip : Nat) (cur : GoStr) (acc : List GoStr) :
    GoStr → List GoStr
  | [] => acc ++ [cur.reverse]
  | c :: rest =>
    match skip with
    | k + 1 => goSplitAux sep k cur acc rest
    | 0 =>
      if sep.isPrefixOf (c :: rest) then
        goSplitAux sep (sep.length - 1) [] (acc ++ [cur.reverse]) rest
      else
        goSplitAux sep 0 (c :: cur) acc rest

/-- Go `strings.Split(s, sep)` for a non-empty separator: splits around
each leftmost non-overlapping occurrence of `sep`. -/
def goSplit (sep s : GoStr) : List GoStr := goSplitAux sep 0 [] [] s

/-- Reference formulation of `strings.Split`, convenient for proofs;
`goSplit_eq_spec` bridges the two. -/
def splitOnSpec (sep : GoStr) (s : GoStr) : List GoStr :=
  match s with
  | [] => [[]]
  | c :: rest =>
    if sep ≠ [] ∧ sep.isPrefixOf (c :: rest) then
      [] :: splitOnSpec sep (List.drop sep.length (c :: rest))
    else
      match splitOnSpec sep rest with
      | [] => [[c]]
      | g :: gs => (c :: g) :: gs
termination_by s.length
decreasing_by
  · rename_i h
    have hsep : sep.length ≠ 0 := by
      simpa [List.length_eq_zero] using h.1
    simp only [List.length_drop, List.length_cons]
    omega
  · simp [Nat.lt_succ_self]

/-- Decimal digit character, as produced by Go's `%d` verb. -/
def digitChar (n : Nat) : Char := Char.ofNat (48 + n)

/-- Worker for `natDigits`, fuel-structural so the kernel can
evaluate it. -/
def natDigitsAux : Nat → Nat → GoStr → GoStr
  | 0, _, acc => acc
  | fuel + 1, n, acc =>
    if n < 10 then digitChar n :: acc
    else natDigitsAux fuel (n / 10) (digitChar (n % 10) :: acc)

/-- Decimal rendering of a natural number, as Go's `fmt` `%d` verb
prints a non-negative `int`. -/
def natDigits (n : Nat) : GoStr := natDigitsAux (n + 1) n []

/-- Decimal rendering of a Go `int` (`%d`). -/
def intDigits (i : Int) : GoStr :=
  if i < 0 then '-' :: natDigits i.natAbs else natDigits i.natAbs

/-! ## Data model (`internal/srt/parser.go`)

`srt.Subtitle`: one subtitle block.  `startTime`/`endTime` model the
Go fields `Start`/`End` (`end` is a reserved word in Lean). -/

/-- `srt.Subtitle`. -/
structure Subtitle where
  index : Int
  startTime : GoStr
  endTime : GoStr
  text : List GoStr
  translated : List GoStr
deriving DecidableEq, Repr

instance : Inhabited Subtitle := ⟨⟨0, [], [], [], []⟩⟩

/-! ## Batch serialization and response parsing

`translateBatchInternal` (service.go lines 175-184) serializes a batch
as `[n]\n` + the unit's lines joined by newlines + `\n`, units
separated by `\n===SUBTITLE===\n`.  The adapters split the model
response on `===SUBTITLE===`, trim each segment, strip a leading
`[n]\n` marker (everything up to and including the first `"]\n"`), and
split the remainder on newlines. -/

/-- The sentinel separating serialized subtitle blocks. -/
def sentinel : GoStr := toG "===SUBTITLE==="

/-- The separator written between serialized units:
`"\n===SUBTITLE===\n"`. -/
def fullSep : GoStr := toG "\n===SUBTITLE===\n"

/-- The end of the positional marker, `"]\n"`. -/
def markerEnd : GoStr := toG "]\n"

/-- The 1-based positional marker `fmt.Sprintf("[%d]\n", n)`. -/
def markerStr (n : Nat) : GoStr := '[' :: natDigits n ++ [']', '\n']

/-- One serialized block: marker, lines joined by `"\n"`
(`strings.Join(sub.Text, "\n")`), trailing `"\n"`. -/
def segOfLines (n : Nat) (lines : List GoStr) : GoStr :=
  markerStr n ++ List.intercalate ['\n'] lines ++ ['\n']

/-- The serialized blocks of a list of line-groups, numbered from `n`. -/
def segsFromLines (n : Nat) : List (List GoStr) → List GoStr
  | [] => []
  | g :: gs => segOfLines n g :: segsFromLines (n + 1) gs

/-- The batch prompt text built by `translateBatchInternal` (service.go
lines 175-184): blocks for the units' source lines in order, numbered
from 1, separated by `"\n===SUBTITLE===\n"` (the separator is written
before every block except the first, and every block ends with
`"\n"`). -/
def serializeBatch (subs : List Subtitle) : GoStr :=
  List.intercalate fullSep (segsFromLines 1 (subs.map Subtitle.text))

/-- A synthetic well-formed model response for the given translated
line-groups: the same `[n]` / lines / `===SUBTITLE===` shape the
prompt template requests, numbered from 1. -/
def wellFormedResponse (groups : List (List GoStr)) : GoStr :=
  List.intercalate fullSep (segsFromLines 1 groups)

/-- Cleaning of one split segment, shared verbatim by
`translateWithOpenAI` (lines 43-59), `translateWithGoogleAI` (lines
61-77) and `translateWithOpenRouter` (part_004 lines 161-177): trim;
drop the segment if empty; strip everything up to and including the
first `"]\n"` and trim again; split on `"\n"`; keep the lines if there
is at least one. -/
def pieceClean (t : GoStr) : Option (List GoStr) :=
  let t1 := goTrim t
  if t1 = [] then none
  else
    let t2 := match goIndex markerEnd t1 with
      | some idx => goTrim (t1.drop (idx + 2))
      | none => t1
    let lines := goSplit ['\n'] t2
    if 0 < lines.length then some lines else none

/-- The response-parsing step of `translateWithOpenAI` /
`translateWithGoogleAI` / `translateWithOpenRouter`: split the content
on `===SUBTITLE===` and fold the cleaning over the segments, appending
each surviving line-group. -/
def parseResponse (content : GoStr) : List (List GoStr) :=
  (goSplit sentinel content).foldl
    (fun acc t => match pieceClean t with
      | some lines => acc ++ [lines]
      | none => acc) []

/-! ## The LM Studio cleaning loop (`lmstudio.go` lines 43-82)

Differences from the shared cleaning: the expected translation count is
`strings.Count(text, "[")` over the prompt text, a first segment
containing the format-instruction echo `"(subtitle number)"` is
skipped, the loop stops as soon as the expected count is reached, and a
final count mismatch is an error. -/

/-- The instruction-echo marker checked on the first segment. -/
def subtitleNumberMarker : GoStr := toG "(subtitle number)"

/-- The expected translation count used by `translateWithLMStudio`
(line 47) and `translateWithOpenRouter` (part_004 line 158):
`strings.Count(text, "[")` over the serialized prompt. -/
def expectedCountOf (text : GoStr) : Nat := countChar '[' text

/-- The collection loop of `translateWithLMStudio` (lines 50-75):
`i` is the range index, `acc` the collected clean translations. -/
def lmLoop (expected : Nat) (i : Nat) (acc : List (List GoStr)) :
    List GoStr → List (List GoStr)
  | [] => acc
  | t :: rest =>
    let t1 := goTrim t
    if t1 = [] then lmLoop expected (i + 1) acc rest
    else if i = 0 && containsSub subtitleNumberMarker t1 then
      lmLoop expected (i + 1) acc rest
    else
      let t2 := match goIndex markerEnd t1 with
        | some idx => goTrim (t1.drop (idx + 2))
        | none => t1
      let lines := goSplit ['\n'] t2
      if 0 < lines.length then
        let acc2 := acc ++ [lines]
        if expected ≤ acc2.length then acc2
        else lmLoop expected (i + 1) acc2 rest
      else lmLoop expected (i + 1) acc rest

/-- Result type of a Go `(value, error)` pair; `err` carries the
`Error()` message string. -/
inductive GoResult (α : Type) where
  | ok (val : α)
  | err (msg : GoStr)
deriving DecidableEq, Repr

/-- `GoResult.isOk`. -/
def GoResult.isOk {α : Type} : GoResult α → Bool
  | .ok _ => true
  | .err _ => false

/-- The pure core of `translateWithLMStudio` (lines 43-82) applied to
the prompt `text` and the model response `content`: clean the split
response and require exactly `strings.Count(text, "[")` groups. -/
def lmClean (text content : GoStr) : GoResult (List (List GoStr)) :=
  let expected := expectedCountOf text
  let clean := lmLoop expected 0 [] (goSplit sentinel content)
  if clean.length ≠ expected then
    .err (toG "expected " ++ natDigits expected ++ toG " translations but got "
      ++ natDigits clean.length)
  else .ok clean

/-! ## Service configuration (`translate/backend`, `service.go` lines 36-113) -/

/-- `translate.Backend`. -/
inductive BackendTag where
  | openai | openrouter | googleai | lmstudio
deriving DecidableEq, Repr

/-- The backend identifier string, for error messages. -/
def backendName : BackendTag → GoStr
  | .openai => toG "openai"
  | .openrouter => toG "openrouter"
  | .googleai => toG "googleai"
  | .lmstudio => toG "lmstudio"

/-- `translate.ServiceConfig`. -/
structure ServiceConfig where
  apiKey : GoStr
  baseURL : GoStr
  model : GoStr
  verbose : Bool
  backend : BackendTag
  rpm : Nat
deriving DecidableEq, Repr

/-- The observable state a `NewService` call produces: the stored
configuration (`service.config`), the base URL the HTTP client was
configured with, and the rate limiter interval in nanoseconds
(`none` when no limiter was created). -/
structure ServiceState where
  config : ServiceConfig
  clientBaseURL : GoStr
  limiterInterval : Option Nat
deriving DecidableEq, Repr

/-- Base URL of `openai.DefaultConfig`. -/
def openAIDefaultBaseURL : GoStr := toG "https://api.openai.com/v1"

/-- The LM Studio loopback default (service.go line 70). -/
def lmStudioDefaultBaseURL : GoStr := toG "http://localhost:1234/v1"

/-- `NewService` (service.go lines 37-89).  The `Service` struct is
built, storing a copy of `config`, before the backend switch runs; the
LM Studio branch then assigns the loopback default to the local
variable `config.BaseURL` only, so the stored `service.config` keeps
the original (possibly empty) base URL while the HTTP client gets the
default.  Go AI client construction is modelled as succeeding. -/
def newService (cfg : ServiceConfig) : GoResult ServiceState :=
  if cfg.apiKey = [] ∧ cfg.backend ≠ .lmstudio then
    .err (toG "API key is required for " ++ backendName cfg.backend ++ toG " backend")
  else
    let limiter := if cfg.rpm > 0 then some (60000000000 / cfg.rpm) else none
    match cfg.backend with
    | .openai => .ok ⟨cfg, openAIDefaultBaseURL, limiter⟩
    | .openrouter => .ok ⟨cfg, cfg.baseURL, limiter⟩
    | .lmstudio =>
      .ok ⟨cfg, if cfg.baseURL = [] then lmStudioDefaultBaseURL else cfg.baseURL, limiter⟩
    | .googleai => .ok ⟨cfg, [], limiter⟩

/-- The `ctx.Err()` message of a cancelled context. -/
def ctxCanceledMsg : GoStr := toG "context canceled"

/-- `waitForRateLimit` (service.go lines 92-106).  With no limiter the
call returns `nil` immediately.  With a limiter it blocks on a select
between `ctx.Done()` and the ticker; real time is not modelled, so the
outcome is determined by whether the context is cancelled before the
next tick. -/
def waitForRateLimit (limiter : Option Nat) (ctxDoneFirst : Bool) : GoResult Unit :=
  match limiter with
  | none => .ok ()
  | some _ => if ctxDoneFirst then .err ctxCanceledMsg else .ok ()

/-- The two leading configuration checks of `translateWithLMStudio`
(lmstudio.go lines 15-21), evaluated against the stored
`service.config`. -/
def lmStudioPreflight (s : ServiceState) : GoResult Unit :=
  if s.config.model = [] then
    .err (toG "model must be specified for LM Studio backend")
  else if s.config.baseURL = [] then
    .err (toG "base URL must be specified for LM Studio backend")
  else .ok ()

/-! ## The per-batch translation core (service.go lines 115-305)

A backend adapter is an oracle: it receives the global count of
provider calls made so far and the serialized batch text, and returns
the parsed clean translations (or an error) together with the updated
call count. -/

/-- A backend adapter call, as dispatched by `translateBatchInternal`
(service.go lines 189-200). -/
abbrev BackendFun := Nat → GoStr → GoResult (List (List GoStr)) × Nat

/-- The success path of `translateBatchInternal` (lines 230-243):
`result := make(...); copy(result, subtitles)` and then
`result[i].Translated = cleanTranslations[i]` for every index; the two
lists have equal length in the branch where this runs. -/
def fillTranslated : List Subtitle → List (List GoStr) → List Subtitle
  | [], _ => []
  | _ :: _, [] => []
  | s :: ss, g :: gs => { s with translated := g } :: fillTranslated ss gs

/-- Error for exhausting the `translateBatchInternal` loop
(service.go line 246, `maxRetries` = 3). -/
def msgInternalExhausted : GoStr :=
  toG "failed to get complete translations after 3 attempts"

/-- Error for a final-attempt partial translation
(service.go lines 225-226). -/
def msgInternalMismatch (expected got : Nat) : GoStr :=
  toG "failed to get complete translations after 3 attempts: expected "
    ++ natDigits expected ++ toG ", got " ++ natDigits got

/-- The `for attempt := 0; attempt <= maxRetries` loop of
`translateBatchInternal` (lines 174-244), with `remaining` the number
of loop iterations still allowed (`maxRetries + 1 - attempt`, starting
at 4).  `attempt < maxRetries` is `remaining ≠ 1` at the point of a
retry decision, i.e. `remaining ≠ 0` after the decrement. -/
def tbiLoop (backend : BackendFun) (subs : List Subtitle) :
    Nat → Nat → GoResult (List Subtitle) × Nat
  | 0, n => (.err msgInternalExhausted, n)
  | remaining + 1, n =>
    let text := serializeBatch subs
    match backend n text with
    | (.err e, n2) =>
      if remaining = 0 then (.err e, n2) else tbiLoop backend subs remaining n2
    | (.ok clean, n2) =>
      if 0 < clean.length ∧ clean.length < subs.length then
        if remaining = 0 then (.err (msgInternalMismatch subs.length clean.length), n2)
        else tbiLoop backend subs remaining n2
      else if clean.length = subs.length then
        (.ok (fillTranslated subs clean), n2)
      else tbiLoop backend subs remaining n2

/-- `translateBatchInternal` (service.go lines 168-247). -/
def translateBatchInternal (backend : BackendFun) (subs : List Subtitle) (n : Nat) :
    GoResult (List Subtitle) × Nat :=
  if subs = [] then (.ok subs, n) else tbiLoop backend subs 4 n

/-- The rate-limit classification of `translateBatch` (lines 140-141):
the error text contains `"429"` or `"RESOURCE_EXHAUSTED"`. -/
def contains429 (e : GoStr) : Bool :=
  containsSub (toG "429") e || containsSub (toG "RESOURCE_EXHAUSTED") e

/-- The backoff slept by `translateBatch` on a rate-limit error (line
142): `baseDelay * 2^attempt` with `baseDelay` one second, in
nanoseconds, with no cap. -/
def batchDelay (attempt : Nat) : Nat := 1000000000 * 2 ^ attempt

/-- The batch error wrapper `fmt.Errorf("failed to translate batch
%d-%d: %w", i, end, err)` used at service.go lines 155 and 291. -/
def msgBatchRange (i endIdx : Nat) (e : GoStr) : GoStr :=
  toG "failed to translate batch " ++ natDigits i ++ toG "-" ++ natDigits endIdx
    ++ toG ": " ++ e

/-- The `for attempt := 0; attempt < maxAttempts` retry loop of
`translateBatch` (lines 132-161), `maxAttempts` = 10.  `remaining` is
`maxAttempts - attempt`; the slept backoff durations are recorded in
`delays`.  The `waitForRateLimit` call at the top of each attempt
returns `nil` under the uncancelled-context model and is elided.  The
result is `some` translations on success, an error on a
non-rate-limit failure, and `none` when all ten attempts were
rate-limited: the Go loop then simply ends, and `translateBatch`
continues with the next batch without appending anything. -/
def tbAttemptLoop (backend : BackendFun) (batch : List Subtitle) (i endIdx : Nat) :
    Nat → Nat → List Nat → GoResult (Option (List Subtitle)) × Nat × List Nat
  | 0, n, delays => (.ok none, n, delays)
  | remaining + 1, n, delays =>
    match translateBatchInternal backend batch n with
    | (.err e, n2) =>
      if contains429 e then
        tbAttemptLoop backend batch i endIdx remaining n2
          (delays ++ [batchDelay (9 - remaining)])
      else (.err (msgBatchRange i endIdx e), n2, delays)
    | (.ok ts, n2) => (.ok (some ts), n2, delays)

/-- The `for i := 0; i < len(subtitles); i += batchSize` loop of
`translateBatch` (lines 120-162), `batchSize` = 20.  `i` is the
absolute position of `rem` in the argument slice; `fuel` bounds the
number of iterations (every iteration consumes at least one unit, so
`fuel = subtitles.length` suffices). -/
def tbOuterLoop (backend : BackendFun) :
    Nat → List Subtitle → Nat → List Subtitle → Nat → List Nat →
    GoResult (List Subtitle) × Nat × List Nat
  | 0, _, _, acc, n, delays => (.ok acc, n, delays)
  | fuel + 1, rem, i, acc, n, delays =>
    if rem = [] then (.ok acc, n, delays)
    else
      let batch := rem.take 20
      match tbAttemptLoop backend batch i (i + batch.length) 10 n delays with
      | (.err e, n2, d2) => (.err e, n2, d2)
      | (.ok none, n2, d2) =>
        tbOuterLoop backend fuel (rem.drop 20) (i + 20) acc n2 d2
      | (.ok (some ts), n2, d2) =>
        tbOuterLoop backend fuel (rem.drop 20) (i + 20) (acc ++ ts) n2 d2

/-- `translateBatch` (service.go lines 116-165). -/
def translateBatch (backend : BackendFun) (subs : List Subtitle) (n : Nat)
    (delays : List Nat) : GoResult (List Subtitle) × Nat × List Nat :=
  tbOuterLoop backend subs.length subs 0 [] n delays

/-- The `for i := 0; i < len(subtitles); i += defaultBatchSize` loop of
`Translate` (service.go lines 282-302), `defaultBatchSize` = 20. -/
def trOuterLoop (backend : BackendFun) :
    Nat → List Subtitle → Nat → List Subtitle → Nat → List Nat →
    GoResult (List Subtitle) × Nat × List Nat
  | 0, _, _, acc, n, delays => (.ok acc, n, delays)
  | fuel + 1, rem, i, acc, n, delays =>
    if rem = [] then (.ok acc, n, delays)
    else
      let batch := rem.take 20
      match translateBatch backend batch n delays with
      | (.err e, n2, d2) => (.err (msgBatchRange i (i + batch.length) e), n2, d2)
      | (.ok ts, n2, d2) =>
        trOuterLoop backend fuel (rem.drop 20) (i + 20) (acc ++ ts) n2 d2

/-- `Translate` (service.go lines 272-305), run from call count 0 with
an empty delay trace. -/
def translateGo (backend : BackendFun) (subs : List Subtitle) :
    GoResult (List Subtitle) × Nat × List Nat :=
  trOuterLoop backend subs.length subs 0 [] 0 []

/-- `rateLimitBackoff`'s slept duration (service.go lines 250-254):
`2^attempt` seconds capped at 30 seconds, in nanoseconds.  This helper
is called by the Google AI adapter (`googleai.go` line 37); the retry
loop of `translateBatch` computes its own, uncapped delay instead. -/
def rateLimitBackoffDur (attempt : Nat) : Nat :=
  let backoff := 2 ^ attempt * 1000000000
  if backoff > 30000000000 then 30000000000 else backoff

/-- The batch partition used by both `Translate` and `translateBatch`:
consecutive slices of at most `defaultBatchSize` (20) units. -/
def goChunks (l : List Subtitle) : List (List Subtitle) :=
  match l with
  | [] => []
  | c :: rest => (c :: rest).take 20 :: goChunks (List.drop 20 (c :: rest))
termination_by l.length
decreasing_by simp only [List.length_drop, List.length_cons]; omega

/-! ## The OpenRouter adapter (`src/unnamed/part_004`) -/

/-- Environment of `translateWithOpenRouter`: the pre-flight key-info
result, the chat completion oracle (indexed by the global count of
`CreateChatCompletion` calls; `ok none` models an empty `Choices`
list), and the `json.Unmarshal`-based moderation-metadata extraction
applied to 403 error payloads.  The 502 branch also extracts provider
metadata, but the Go code unconditionally overwrites that message on
the next line, so the extraction is not observable and needs no
oracle. -/
structure OREnv where
  keyInfo : GoResult Unit
  chat : Nat → GoResult (Option GoStr)
  moderationMeta : GoStr → Option GoStr

/-- The `for attempt := 0; attempt < maxRetries` loop of
`translateWithOpenRouter` (part_004 lines 62-194), `maxRetries` = 10;
`remaining` is `maxRetries - attempt` and `n` counts
`CreateChatCompletion` calls.  A retry decision `attempt <
maxRetries-1` is `remaining ≠ 0` after the decrement.  The
`waitForRateLimit` call at the top of each attempt returns `nil` under
the uncancelled-context model and is elided.  Insufficient credits
(402) and moderation-metadata (403) errors return immediately with no
retry. -/
def orLoop (env : OREnv) (text : GoStr) :
    Nat → Nat → GoStr → GoResult (List (List GoStr)) × Nat
  | 0, n, lastErr => (.err (toG "max retries exceeded: " ++ lastErr), n)
  | remaining + 1, n, _lastErr =>
    match env.keyInfo with
    | .err e => (.err (toG "failed to check OpenRouter key info: " ++ e), n)
    | .ok _ =>
      match env.chat n with
      | .err e =>
        if containsSub (toG "error code: 429") e then
          let msg := toG "rate limited: " ++ e
          if remaining = 0 then (.err msg, n + 1) else orLoop env text remaining (n + 1) msg
        else if containsSub (toG "error code: 402") e then
          (.err (toG "insufficient credits: " ++ e), n + 1)
        else if containsSub (toG "error code: 403") e then
          match env.moderationMeta e with
          | some meta => (.err (toG "content moderation error: " ++ meta), n + 1)
          | none =>
            let msg := toG "moderation error: " ++ e
            if remaining = 0 then (.err msg, n + 1) else orLoop env text remaining (n + 1) msg
        else if containsSub (toG "error code: 502") e then
          -- part_004 lines 109-115: a metadata-based message is
          -- assigned and then unconditionally overwritten with
          -- `fmt.Errorf("provider error: %w", err)`
          let msg := toG "provider error: " ++ e
          if remaining = 0 then (.err msg, n + 1) else orLoop env text remaining (n + 1) msg
        else
          let msg := toG "OpenRouter API error: " ++ e
          if remaining = 0 then (.err msg, n + 1) else orLoop env text remaining (n + 1) msg
      | .ok none =>
        let msg := toG "empty response from OpenRouter"
        if remaining = 0 then (.err msg, n + 1) else orLoop env text remaining (n + 1) msg
      | .ok (some content) =>
        if content = [] then
          let msg := toG "model generated no content (possibly warming up)"
          if remaining = 0 then (.err msg, n + 1) else orLoop env text remaining (n + 1) msg
        else
          let clean := parseResponse content
          let expected := expectedCountOf text
          if clean.length ≠ expected then
            let msg := toG "received " ++ natDigits clean.length
              ++ toG " translations, expected " ++ natDigits expected
            if remaining = 0 then (.err msg, n + 1) else orLoop env text remaining (n + 1) msg
          else (.ok clean, n + 1)

/-- `translateWithOpenRouter` (part_004 lines 54-197) as a backend
adapter for the service loops. -/
def orBackend (env : OREnv) : BackendFun := fun n text => orLoop env text 10 n []

/-! ## The SRT writer (`src/unnamed/part_002`, `Write`, lines 99-146) -/

/-- The text block chosen for a subtitle entry (lines 118-122):
`sub.Translated` when non-empty, else `sub.Text`. -/
def chosenText (sub : Subtitle) : List GoStr :=
  if sub.translated ≠ [] then sub.translated else sub.text

/-- One written subtitle entry: index line, timestamp line, then each
chosen text line terminated by `"\n"`. -/
def srtEntry (sub : Subtitle) : GoStr :=
  intDigits sub.index ++ ['\n']
    ++ sub.startTime ++ toG " --> " ++ sub.endTime ++ ['\n']
    ++ ((chosenText sub).map (fun l => l ++ ['\n'])).flatten

/-- `Write`'s output content (part_002 lines 106-135): every entry,
with a blank line between consecutive entries (none after the last). -/
def writeSrt : List Subtitle → GoStr
  | [] => []
  | [s] => srtEntry s
  | s :: s2 :: rest => srtEntry s ++ ['\n'] ++ writeSrt (s2 :: rest)

/-! ## Definitions used by the proofs -/

/-- Prepend `x` to the head piece of a split result. -/
def consHead (x : GoStr) : List GoStr → List GoStr
  | [] => [x]
  | y :: ys => (x ++ y) :: ys

/-- The pieces `strings.Split` produces from blocks intercalated with
`"\n" ++ sentinel ++ "\n"`: the leading `"\n"` of each separator is
attached to the piece on its left, the trailing one to the piece on
its right. -/
def decorate (pre : GoStr) : List GoStr → List GoStr
  | [] => [pre]
  | [s] => [pre ++ s]
  | s :: s2 :: ss => (pre ++ s ++ ['\n']) :: decorate ['\n'] (s2 :: ss)

/-- `sentinel` with its head exposed: see `sentinel_eq`. -/
def sentinelTail : GoStr := toG "==SUBTITLE==="

/-- A translated line is well formed when it is non-empty, starts and
ends with a non-whitespace character, and contains neither a newline
nor the `'='` of the sentinel. -/
def wfLine (l : GoStr) : Bool :=
  match l.head?, l.getLast? with
  | some a, some b =>
    !isSpaceChar a && !isSpaceChar b && l.all (fun c => c ≠ '\n' && c ≠ '=')
  | _, _ => false

/-- A well-formed line-group: non-empty, all lines well formed. -/
def wfGroup (g : List GoStr) : Bool := !g.isEmpty && g.all wfLine

/-- The total number of `'['` characters in the units' source lines. -/
def bracketTotal (units : List Subtitle) : Nat :=
  (units.map (fun u => (u.text.map (countChar '[')).sum)).sum

/-- A stub backend that always fails with a rate-limit (`429`)
message. -/
def b429 : BackendFun := fun n _ => (.err (toG "upstream rate limit: 429"), n + 1)

/-- A stub backend that succeeds on every call, echoing one singleton
group per serialized block. -/
def okBackend : BackendFun :=
  fun n text => (.ok ((goSplit sentinel text).map (fun seg => [seg])), n + 1)

/-- An OpenRouter environment whose chat call always fails with an
insufficient-credits (`402`) provider error. -/
def env402 : OREnv :=
  ⟨.ok (), fun _ => .err (toG "error code: 402, insufficient funds"),
    fun _ => none⟩

/-- Concrete subtitle fixtures. -/
def subFix1 : Subtitle :=
  ⟨1, toG "00:00:01,000", toG "00:00:02,000", [toG "Hello there"], []⟩

/-- Second concrete subtitle fixture. -/
def subFix2 : Subtitle :=
  ⟨2, toG "00:00:03,000", toG "00:00:04,000", [toG "General Kenobi"], []⟩

/-- A subtitle whose source line is a bracketed sound cue. -/
def subMusic : Subtitle :=
  ⟨1, toG "00:00:01,000", toG "00:00:02,000", [toG "[music]"], []⟩

/-- A subtitle with no text lines at all, as the SRT parsers can
produce for a block consisting of only an index and a timestamp. -/
def subEmptyText : Subtitle :=
  ⟨3, toG "00:00:05,000", toG "00:00:06,000", [], []⟩

/-- The spec's end-to-end scenario: 45 units. -/
def fix45 : List Subtitle :=
  (List.range 45).map (fun i => ⟨i, toG "s", toG "e", [toG "line"], []⟩)

/-- A concrete pair of well-formed translated line-groups. -/
def grpFix : List (List GoStr) :=
  [[toG "Hei der"], [toG "General Kenobi", toG "du der"]]

/-- A configuration with no rate limit. -/
def cfg0Fix : ServiceConfig := ⟨toG "k", [], toG "m", false, .openai, 0⟩

/-- The service state `cfg0Fix` produces. -/
def s0Fix : ServiceState := ⟨cfg0Fix, openAIDefaultBaseURL, none⟩

/-- A configuration with a 60-requests-per-minute limit. -/
def cfg60Fix : ServiceConfig := ⟨toG "k", [], toG "m", false, .openai, 60⟩

/-- The service state `cfg60Fix` produces: a one-second interval. -/
def s60Fix : ServiceState := ⟨cfg60Fix, openAIDefaultBaseURL, some 1000000000⟩

/-- An LM Studio configuration with empty credential and base URL. -/
def lmCfgFix : ServiceConfig := ⟨[], [], toG "m", false, .lmstudio, 0⟩

/-- The service state `lmCfgFix` produces: the HTTP client got the
loopback default, but the stored config still has an empty base URL. -/
def lmStateFix : ServiceState := ⟨lmCfgFix, lmStudioDefaultBaseURL, none⟩

/-- The result of a successful `translateBatchInternal` run of
`okBackend` on `[subFix1]`. -/
def c9resFix : List Subtitle :=
  [⟨1, toG "00:00:01,000", toG "00:00:02,000", [toG "Hello there"],
    [toG "[1]\nHello there\n"]⟩]

/-! ## Lemmas about `strings.Split` -/

theorem splitOnSpec_nil (sep : GoStr) : splitOnSpec sep [] = [[]] := by
  simp [splitOnSpec]

theorem splitOnSpec_ne_nil (sep s : GoStr) : splitOnSpec sep s ≠ [] := by
  match s with
  | [] => simp [splitOnSpec]
  | c :: rest =>
    rw [splitOnSpec]
    split
    · simp
    · split <;> simp

theorem isPrefixOf_cons_of_ne {c0 x : Char} (sep' rest : GoStr) (h : c0 ≠ x) :
    (c0 :: sep').isPrefixOf (x :: rest) = false := by
  simp [List.isPrefixOf, h]

theorem splitOnSpec_no_occ (c0 : Char) (sep' a : GoStr) (ha : c0 ∉ a) :
    splitOnSpec (c0 :: sep') a = [a] := by
  induction a with
  | nil => simp [splitOnSpec]
  | cons x rest ih =>
    have hx : c0 ≠ x := fun h => ha (h ▸ List.mem_cons_self x rest)
    rw [splitOnSpec, if_neg, ih (fun h => ha (List.mem_cons_of_mem _ h))]
    intro hcon
    rw [isPrefixOf_cons_of_ne sep' rest hx] at hcon
    exact Bool.false_ne_true hcon.2

theorem splitOnSpec_append (c0 : Char) (sep' a b : GoStr) (ha : c0 ∉ a) :
    splitOnSpec (c0 :: sep') (a ++ (c0 :: sep') ++ b) =
      a :: splitOnSpec (c0 :: sep') b := by
  induction a with
  | nil =>
    simp only [List.nil_append, List.cons_append]
    rw [splitOnSpec, if_pos]
    · have hd : List.drop (c0 :: sep').length (c0 :: (sep' ++ b)) = b := by
        have : List.drop (c0 :: sep').length (c0 :: (sep' ++ b)) =
            List.drop sep'.length (sep' ++ b) := by
          simp [List.length_cons]
        rw [this, List.drop_left]
      rw [hd]
    · refine ⟨by simp, ?_⟩
      rw [List.isPrefixOf_iff_prefix]
      exact ⟨b, by simp⟩
  | cons x a' ih =>
    have hx : c0 ≠ x := fun h => ha (h ▸ List.mem_cons_self x a')
    have ih' := ih (fun h => ha (List.mem_cons_of_mem _ h))
    simp only [List.cons_append]
    rw [splitOnSpec, if_neg]
    · rw [ih']
    · intro hcon
      rw [isPrefixOf_cons_of_ne sep' _ hx] at hcon
      exact Bool.false_ne_true hcon.2

theorem goSplitAux_skip (sep : GoStr) (cur : GoStr) (acc : List GoStr) :
    ∀ (s : GoStr) (k : Nat),
      goSplitAux sep k cur acc s = goSplitAux sep 0 cur acc (s.drop k) := by
  intro s
  induction s with
  | nil => intro k; cases k <;> simp [goSplitAux]
  | cons c rest ih =>
    intro k
    cases k with
    | zero => simp
    | succ k =>
      show goSplitAux sep (k + 1) cur acc (c :: rest) = _
      rw [goSplitAux, ih k]
      simp

theorem consHead_nil_of_ne_nil (ys : List GoStr) (h : ys ≠ []) :
    consHead [] ys = ys := by
  match ys with
  | [] => exact absurd rfl h
  | y :: ys => simp [consHead]

theorem goSplitAux_spec (sep : GoStr) (hsep : sep ≠ []) :
    ∀ (fuel : Nat) (s : GoStr), s.length ≤ fuel → ∀ (cur : GoStr) (acc : List GoStr),
      goSplitAux sep 0 cur acc s = acc ++ consHead cur.reverse (splitOnSpec sep s) := by
  intro fuel
  induction fuel with
  | zero =>
    intro s hs cur acc
    have : s = [] := List.length_eq_zero.mp (Nat.le_zero.mp hs)
    subst this
    simp [goSplitAux, splitOnSpec_nil, consHead]
  | succ fuel ih =>
    intro s hs cur acc
    match s with
    | [] => simp [goSplitAux, splitOnSpec_nil, consHead]
    | c :: rest =>
      by_cases hp : sep.isPrefixOf (c :: rest)
      · rw [goSplitAux, if_pos hp]
        obtain ⟨m, hm⟩ : ∃ m, sep.length = m + 1 := by
          match sep with
          | [] => exact absurd rfl hsep
          | x :: xs => exact ⟨xs.length, by simp⟩
        have hdrop : List.drop sep.length (c :: rest) = rest.drop m := by
          rw [hm]; simp
        have hlen : (rest.drop m).length ≤ fuel := by
          have := List.length_drop m rest
          simp only [List.length_cons] at hs
          omega
        rw [goSplitAux_skip, show sep.length - 1 = m by omega,
          ih (rest.drop m) hlen [] (acc ++ [cur.reverse])]
        rw [splitOnSpec, if_pos ⟨hsep, hp⟩, hdrop]
        have hne := splitOnSpec_ne_nil sep (rest.drop m)
        rw [List.reverse_nil, consHead_nil_of_ne_nil _ hne]
        simp [consHead]
      · rw [goSplitAux, if_neg hp]
        have hlen : rest.length ≤ fuel := by
          simp only [List.length_cons] at hs; omega
        rw [ih rest hlen (c :: cur) acc]
        rw [splitOnSpec, if_neg (fun hcon => hp hcon.2)]
        have hne := splitOnSpec_ne_nil sep rest
        cases hsp : splitOnSpec sep rest with
        | nil => exact absurd hsp hne
        | cons y ys => simp [consHead]

theorem goSplit_eq_spec (sep s : GoStr) (hsep : sep ≠ []) :
    goSplit sep s = splitOnSpec sep s := by
  rw [goSplit, goSplitAux_spec sep hsep s.length s le_rfl [] []]
  simp only [List.nil_append, List.reverse_nil]
  exact consHead_nil_of_ne_nil _ (splitOnSpec_ne_nil sep s)

/-! ## Lemmas about `TrimSpace`, `Index` and the decimal rendering -/

theorem dropWhile_append_all (p : Char → Bool) (a b : GoStr)
    (h : ∀ c ∈ a, p c = true) : (a ++ b).dropWhile p = b.dropWhile p := by
  induction a with
  | nil => rfl
  | cons x a ih =>
    simp only [List.cons_append, List.dropWhile_cons, h x (List.mem_cons_self x a)]
    exact ih (fun c hc => h c (List.mem_cons_of_mem _ hc))

theorem goTrim_all_ws (s : GoStr) (h : ∀ c ∈ s, isSpaceChar c = true) :
    goTrim s = [] := by
  have h1 : trimLeft s = [] := by
    have := dropWhile_append_all isSpaceChar s [] h
    simpa [trimLeft] using this
  rw [goTrim, h1]
  rfl

theorem goTrim_sandwich (pre x suf : GoStr)
    (hpre : ∀ c ∈ pre, isSpaceChar c = true)
    (hsuf : ∀ c ∈ suf, isSpaceChar c = true)
    (c0 : Char) (hh : x.head? = some c0) (hc0 : isSpaceChar c0 = false)
    (c1 : Char) (hl : x.getLast? = some c1) (hc1 : isSpaceChar c1 = false) :
    goTrim (pre ++ x ++ suf) = x := by
  match x, hh with
  | x0 :: xs, hh =>
    have hx0 : x0 = c0 := by simpa using hh
    subst hx0
    have h1 : trimLeft (pre ++ (x0 :: xs) ++ suf) = (x0 :: xs) ++ suf := by
      rw [trimLeft, List.append_assoc, dropWhile_append_all _ pre _ hpre]
      simp [List.dropWhile_cons, hc0]
    rw [goTrim, h1, trimRight, List.reverse_append,
      dropWhile_append_all _ suf.reverse _
        (fun c hc => hsuf c (List.mem_reverse.mp hc))]
    have hne : (x0 :: xs).reverse ≠ [] := by simp
    cases hrev : (x0 :: xs).reverse with
    | nil => exact absurd hrev hne
    | cons r rs =>
      have hr : r = c1 := by
        have := List.head?_reverse (x0 :: xs)
        rw [hrev, hl] at this
        simpa using this
      subst hr
      rw [List.dropWhile_cons]
      simp only [hc1, Bool.false_eq_true, if_false]
      rw [← hrev, List.reverse_reverse]

theorem digitChar_isDigit (n : Nat) (h : n < 10) : (digitChar n).isDigit = true := by
  interval_cases n <;> decide

theorem natDigitsAux_digits (fuel : Nat) :
    ∀ (n : Nat) (acc : GoStr), (∀ c ∈ acc, c.isDigit = true) →
      ∀ c ∈ natDigitsAux fuel n acc, c.isDigit = true := by
  induction fuel with
  | zero => intro n acc hacc c hc; exact hacc c hc
  | succ fuel ih =>
    intro n acc hacc c hc
    rw [natDigitsAux] at hc
    split at hc
    · rcases List.mem_cons.mp hc with h | h
      · exact h ▸ digitChar_isDigit n (by omega)
      · exact hacc c h
    · refine ih (n / 10) _ ?_ c hc
      intro d hd
      rcases List.mem_cons.mp hd with h | h
      · exact h ▸ digitChar_isDigit (n % 10) (Nat.mod_lt n (by omega))
      · exact hacc d h

theorem natDigits_digits (n : Nat) : ∀ c ∈ natDigits n, c.isDigit = true :=
  natDigitsAux_digits (n + 1) n [] (by simp)

theorem isDigit_ne_specials (c : Char) (h : c.isDigit = true) :
    c ≠ '[' ∧ c ≠ ']' ∧ c ≠ '=' ∧ c ≠ '\n' ∧ isSpaceChar c = false := by
  refine ⟨?_, ?_, ?_, ?_, ?_⟩
  · intro h2; subst h2; exact absurd h (by decide)
  · intro h2; subst h2; exact absurd h (by decide)
  · intro h2; subst h2; exact absurd h (by decide)
  · intro h2; subst h2; exact absurd h (by decide)
  · by_contra hcon
    rw [Bool.not_eq_false, isSpaceChar] at hcon
    simp only [Bool.or_eq_true, decide_eq_true_eq] at hcon
    rcases hcon with ((((h1 | h1) | h1) | h1) | h1) | h1 <;>
      (subst h1; exact absurd h (by decide))

theorem goIndex_first (p0 : Char) (pr a b : GoStr) (ha : ∀ c ∈ a, c ≠ p0) :
    goIndex (p0 :: pr) (a ++ (p0 :: pr) ++ b) = some a.length := by
  induction a with
  | nil =>
    simp only [List.nil_append, List.cons_append, List.length_nil]
    rw [goIndex, if_pos]
    rw [List.isPrefixOf_iff_prefix]
    exact ⟨b, by simp⟩
  | cons x a ih =>
    have hx : p0 ≠ x := fun h => (ha x (List.mem_cons_self x a)) h.symm
    simp only [List.cons_append]
    rw [goIndex, if_neg]
    · rw [ih (fun c hc => ha c (List.mem_cons_of_mem _ hc))]
      rfl
    · rw [isPrefixOf_cons_of_ne pr _ hx]
      exact Bool.false_ne_true

/-! ## Lemmas about `intercalate` and the sentinel chain -/

theorem intercalate_single (sep a : GoStr) : List.intercalate sep [a] = a := by
  simp [List.intercalate]

theorem intercalate_cons2 (sep a b : GoStr) (l : List GoStr) :
    List.intercalate sep (a :: b :: l) = a ++ sep ++ List.intercalate sep (b :: l) := by
  simp [List.intercalate, List.intersperse]

theorem sentinel_eq : sentinel = '=' :: sentinelTail := by decide

theorem fullSep_decomp : fullSep = ['\n'] ++ sentinel ++ ['\n'] := by decide

theorem sentinel_split_no_occ (a : GoStr) (ha : '=' ∉ a) :
    splitOnSpec sentinel a = [a] := by
  rw [sentinel_eq]
  exact splitOnSpec_no_occ _ _ _ ha

theorem sentinel_split_append (a b : GoStr) (ha : '=' ∉ a) :
    splitOnSpec sentinel (a ++ sentinel ++ b) = a :: splitOnSpec sentinel b := by
  rw [sentinel_eq]
  exact splitOnSpec_append _ _ _ _ ha

theorem chainSplit : ∀ (ss : List GoStr) (pre : GoStr), '=' ∉ pre →
    (∀ s ∈ ss, '=' ∉ s) →
    splitOnSpec sentinel (pre ++ List.intercalate fullSep ss) = decorate pre ss := by
  intro ss
  induction ss with
  | nil =>
    intro pre hpre _
    rw [show List.intercalate fullSep [] = [] by simp [List.intercalate],
      List.append_nil, decorate]
    exact sentinel_split_no_occ pre hpre
  | cons s ss ih =>
    intro pre hpre hss
    cases ss with
    | nil =>
      rw [intercalate_single, decorate]
      refine sentinel_split_no_occ (pre ++ s) ?_
      intro hmem
      rcases List.mem_append.mp hmem with h | h
      · exact hpre h
      · exact hss s (List.mem_cons_self s []) h
    | cons s2 ss2 =>
      have harr : pre ++ List.intercalate fullSep (s :: s2 :: ss2) =
          (pre ++ s ++ ['\n']) ++ sentinel ++
            (['\n'] ++ List.intercalate fullSep (s2 :: ss2)) := by
        rw [intercalate_cons2, fullSep_decomp]
        simp [List.append_assoc]
      rw [harr, sentinel_split_append]
      · rw [ih ['\n'] (by decide) (fun t ht => hss t (List.mem_cons_of_mem _ ht)),
          decorate]
      · intro hmem
        rcases List.mem_append.mp hmem with h | h
        · rcases List.mem_append.mp h with h2 | h2
          · exact hpre h2
          · exact hss s (List.mem_cons_self s _) h2
        · simp at h

theorem decorate_length : ∀ (ss : List GoStr) (pre : GoStr), ss ≠ [] →
    (decorate pre ss).length = ss.length := by
  intro ss
  induction ss with
  | nil => intro pre h; exact absurd rfl h
  | cons s ss ih =>
    intro pre _
    cases ss with
    | nil => rfl
    | cons s2 ss2 =>
      rw [decorate]
      simp only [List.length_cons]
      rw [ih ['\n'] (by simp)]
      simp

theorem segsFromLines_length : ∀ (gs : List (List GoStr)) (n : Nat),
    (segsFromLines n gs).length = gs.length := by
  intro gs
  induction gs with
  | nil => intro n; rfl
  | cons g gs ih => intro n; simp [segsFromLines, ih (n + 1)]

/-! ## Well-formed segments and the piece-cleaning lemma -/

theorem wfLine_spec (l : GoStr) (h : wfLine l = true) :
    ∃ a b, l.head? = some a ∧ isSpaceChar a = false ∧
      l.getLast? = some b ∧ isSpaceChar b = false ∧
      ∀ c ∈ l, c ≠ '\n' ∧ c ≠ '=' := by
  rw [wfLine] at h
  split at h
  · rename_i a b ha hb
    simp only [Bool.and_eq_true, Bool.not_eq_true', List.all_eq_true] at h
    refine ⟨a, b, ha, h.1.1, hb, h.1.2, ?_⟩
    intro c hc
    have := h.2 c hc
    simp only [Bool.and_eq_true, decide_eq_true_eq] at this
    exact this
  · exact absurd h (by simp)

theorem wfGroup_spec (g : List GoStr) (h : wfGroup g = true) :
    g ≠ [] ∧ ∀ l ∈ g, wfLine l = true := by
  rw [wfGroup] at h
  simp only [Bool.and_eq_true, Bool.not_eq_true', List.isEmpty_eq_false,
    List.all_eq_true] at h
  exact ⟨h.1, h.2⟩

theorem wfGroup_tail (l : GoStr) (ls : List GoStr)
    (h : wfGroup (l :: ls) = true) (hls : ls ≠ []) : wfGroup ls = true := by
  obtain ⟨_, hall⟩ := wfGroup_spec _ h
  rw [wfGroup]
  simp only [Bool.and_eq_true, Bool.not_eq_true', List.isEmpty_eq_false,
    List.all_eq_true]
  exact ⟨hls, fun x hx => hall x (List.mem_cons_of_mem _ hx)⟩

theorem getLast?_append_right (a b : GoStr) (h : b ≠ []) :
    (a ++ b).getLast? = b.getLast? := by
  rw [List.getLast?_append]
  cases hb : b.getLast? with
  | none => exact absurd (List.getLast?_eq_none_iff.mp hb) h
  | some x => rfl

theorem joined_head (g : List GoStr) (hg : wfGroup g = true) :
    ∃ c, (List.intercalate ['\n'] g).head? = some c ∧ isSpaceChar c = false := by
  obtain ⟨hne, hlines⟩ := wfGroup_spec g hg
  match g with
  | l :: ls =>
    obtain ⟨a, b, hha, hwa, _, _, _⟩ := wfLine_spec l (hlines l (List.mem_cons_self l ls))
    have hlne : l ≠ [] := fun hn => by rw [hn] at hha; simp at hha
    cases ls with
    | nil => exact ⟨a, by rw [intercalate_single]; exact hha, hwa⟩
    | cons l2 ls2 =>
      refine ⟨a, ?_, hwa⟩
      rw [intercalate_cons2, List.append_assoc,
        List.head?_append_of_ne_nil _ hlne]
      exact hha

theorem joined_last : ∀ (g : List GoStr), wfGroup g = true →
    ∃ c, (List.intercalate ['\n'] g).getLast? = some c ∧ isSpaceChar c = false := by
  intro g
  induction g with
  | nil => intro hg; exact absurd hg (by decide)
  | cons l ls ih =>
    intro hg
    obtain ⟨_, hlines⟩ := wfGroup_spec _ hg
    cases ls with
    | nil =>
      obtain ⟨a, b, _, _, hlb, hwb, _⟩ :=
        wfLine_spec l (hlines l (List.mem_cons_self l []))
      exact ⟨b, by rw [intercalate_single]; exact hlb, hwb⟩
    | cons l2 ls2 =>
      obtain ⟨c, hc, hwc⟩ := ih (wfGroup_tail l _ hg (by simp))
      have hrne : List.intercalate ['\n'] (l2 :: ls2) ≠ [] := by
        intro hn; rw [hn] at hc; simp at hc
      refine ⟨c, ?_, hwc⟩
      rw [intercalate_cons2, getLast?_append_right _ _ hrne]
      exact hc

theorem intercalate_not_mem (c : Char) (sep : GoStr) (hc : c ∉ sep) :
    ∀ (gs : List GoStr), (∀ l ∈ gs, c ∉ l) → c ∉ List.intercalate sep gs := by
  intro gs
  induction gs with
  | nil => intro _; simp [List.intercalate]
  | cons l ls ih =>
    intro h
    cases ls with
    | nil =>
      rw [intercalate_single]
      exact h l (List.mem_cons_self l [])
    | cons l2 ls2 =>
      rw [intercalate_cons2]
      intro hmem
      rcases List.mem_append.mp hmem with h1 | h1
      · rcases List.mem_append.mp h1 with h2 | h2
        · exact h l (List.mem_cons_self l _) h2
        · exact hc h2
      · exact ih (fun x hx => h x (List.mem_cons_of_mem _ hx)) h1

theorem splitNl_intercalate : ∀ (g : List GoStr), g ≠ [] →
    (∀ l ∈ g, '\n' ∉ l) →
    splitOnSpec ['\n'] (List.intercalate ['\n'] g) = g := by
  intro g
  induction g with
  | nil => intro h _; exact absurd rfl h
  | cons l ls ih =>
    intro _ h
    cases ls with
    | nil =>
      rw [intercalate_single]
      exact splitOnSpec_no_occ '\n' [] l (h l (List.mem_cons_self l []))
    | cons l2 ls2 =>
      rw [intercalate_cons2,
        splitOnSpec_append '\n' [] l _ (h l (List.mem_cons_self l _)),
        ih (by simp) (fun x hx => h x (List.mem_cons_of_mem _ hx))]

theorem markerEnd_eq : markerEnd = [']', '\n'] := by decide

theorem marker_decomp (n : Nat) (tail : GoStr) :
    markerStr n ++ tail = ('[' :: natDigits n) ++ markerEnd ++ tail := by
  simp [markerStr, markerEnd_eq]

theorem goTrim_eq_self (x : GoStr)
    (c0 : Char) (h0 : x.head? = some c0) (hc0 : isSpaceChar c0 = false)
    (c1 : Char) (h1 : x.getLast? = some c1) (hc1 : isSpaceChar c1 = false) :
    goTrim x = x := by
  have := goTrim_sandwich [] x [] (by simp) (by simp) c0 h0 hc0 c1 h1 hc1
  simpa using this

theorem pieceClean_ws (t : GoStr) (h : ∀ c ∈ t, isSpaceChar c = true) :
    pieceClean t = none := by
  simp [pieceClean, goTrim_all_ws t h]

theorem pieceClean_seg (n : Nat) (g : List GoStr) (pre suf : GoStr)
    (hg : wfGroup g = true)
    (hpre : ∀ c ∈ pre, isSpaceChar c = true)
    (hsuf : ∀ c ∈ suf, isSpaceChar c = true) :
    pieceClean (pre ++ (markerStr n ++ List.intercalate ['\n'] g) ++ suf) = some g := by
  obtain ⟨hgne, hlines⟩ := wfGroup_spec g hg
  obtain ⟨c0, hjh, hwc0⟩ := joined_head g hg
  obtain ⟨c1, hjl, hwc1⟩ := joined_last g hg
  have hjne : List.intercalate ['\n'] g ≠ [] := by
    intro hn; rw [hn] at hjh; simp at hjh
  have hxh : (markerStr n ++ List.intercalate ['\n'] g).head? = some '[' := by
    rw [markerStr]; rfl
  have hxl : (markerStr n ++ List.intercalate ['\n'] g).getLast? = some c1 := by
    rw [getLast?_append_right _ _ hjne]; exact hjl
  have htrim : goTrim (pre ++ (markerStr n ++ List.intercalate ['\n'] g) ++ suf)
      = markerStr n ++ List.intercalate ['\n'] g :=
    goTrim_sandwich pre _ suf hpre hsuf '[' hxh (by decide) c1 hxl hwc1
  have hdigits : ∀ c ∈ '[' :: natDigits n, c ≠ ']' := by
    intro c hc
    rcases List.mem_cons.mp hc with h | h
    · subst h; decide
    · exact (isDigit_ne_specials c (natDigits_digits n c h)).2.1
  have hidx : goIndex markerEnd (markerStr n ++ List.intercalate ['\n'] g)
      = some ('[' :: natDigits n).length := by
    rw [marker_decomp, markerEnd_eq]
    exact goIndex_first ']' ['\n'] _ _ hdigits
  have hdrop : (markerStr n ++ List.intercalate ['\n'] g).drop
      (('[' :: natDigits n).length + 2) = List.intercalate ['\n'] g := by
    rw [marker_decomp]
    refine List.drop_left' ?_
    simp [markerEnd_eq]
  have htrim2 : goTrim (List.intercalate ['\n'] g) = List.intercalate ['\n'] g :=
    goTrim_eq_self _ c0 hjh hwc0 c1 hjl hwc1
  have hnl : ∀ l ∈ g, '\n' ∉ l := by
    intro l hl hm
    obtain ⟨a, b, _, _, _, _, hchars⟩ := wfLine_spec l (hlines l hl)
    exact (hchars '\n' hm).1 rfl
  have hsplit : goSplit ['\n'] (List.intercalate ['\n'] g) = g := by
    rw [goSplit_eq_spec _ _ (by simp)]
    exact splitNl_intercalate g hgne hnl
  have hx_ne : markerStr n ++ List.intercalate ['\n'] g ≠ [] := by
    simp [markerStr]
  simp only [pieceClean]
  rw [htrim, if_neg hx_ne, hidx]
  simp only []
  rw [hdrop, htrim2, hsplit,
    if_pos (List.length_pos.mpr hgne)]

/-! ## The response round trip -/

theorem parse_foldl_filterMap : ∀ (l : List GoStr) (acc : List (List GoStr)),
    l.foldl (fun acc t => match pieceClean t with
      | some lines => acc ++ [lines]
      | none => acc) acc = acc ++ l.filterMap pieceClean := by
  intro l
  induction l with
  | nil => intro acc; simp
  | cons t l ih =>
    intro acc
    rw [List.foldl_cons, List.filterMap_cons]
    cases hp : pieceClean t with
    | none => simp only [hp]; rw [ih]
    | some lines => simp only [hp]; rw [ih]; simp

theorem parseResponse_eq_filterMap (content : GoStr) :
    parseResponse content = (goSplit sentinel content).filterMap pieceClean := by
  rw [parseResponse, parse_foldl_filterMap]
  rfl

theorem wfLine_eq_not_mem (l : GoStr) (h : wfLine l = true) : '=' ∉ l := by
  intro hm
  obtain ⟨a, b, _, _, _, _, hchars⟩ := wfLine_spec l h
  exact (hchars '=' hm).2 rfl

theorem segsFromLines_eqFree : ∀ (gs : List (List GoStr)) (n : Nat),
    (∀ g ∈ gs, ∀ l ∈ g, '=' ∉ l) →
    ∀ s ∈ segsFromLines n gs, '=' ∉ s := by
  intro gs
  induction gs with
  | nil => intro n _ s hs; simp [segsFromLines] at hs
  | cons g gs ih =>
    intro n h s hs
    rw [segsFromLines] at hs
    rcases List.mem_cons.mp hs with h1 | h1
    · subst h1
      intro hmem
      rw [segOfLines] at hmem
      rcases List.mem_append.mp hmem with h2 | h2
      · rcases List.mem_append.mp h2 with h3 | h3
        · rw [markerStr] at h3
          rcases List.mem_cons.mp h3 with h4 | h4
          · exact absurd h4 (by decide)
          · rcases List.mem_append.mp h4 with h5 | h5
            · exact absurd (natDigits_digits n '=' h5) (by decide)
            · simp at h5
        · exact intercalate_not_mem '=' ['\n'] (by decide) g
            (h g (List.mem_cons_self g gs)) h3
      · simp at h2
    · exact ih (n + 1) (fun g2 hg2 => h g2 (List.mem_cons_of_mem _ hg2)) s h1

theorem filterMap_decorate : ∀ (gs : List (List GoStr)) (n : Nat) (pre : GoStr),
    (∀ c ∈ pre, isSpaceChar c = true) → (∀ g ∈ gs, wfGroup g = true) →
    (decorate pre (segsFromLines n gs)).filterMap pieceClean = gs := by
  intro gs
  induction gs with
  | nil =>
    intro n pre hpre _
    rw [segsFromLines, decorate]
    simp [List.filterMap_cons, pieceClean_ws pre hpre]
  | cons g gs ih =>
    intro n pre hpre hwf
    cases gs with
    | nil =>
      rw [segsFromLines, segsFromLines, decorate]
      have harr : pre ++ segOfLines n g =
          pre ++ (markerStr n ++ List.intercalate ['\n'] g) ++ ['\n'] := by
        simp [segOfLines, List.append_assoc]
      rw [List.filterMap_cons, harr,
        pieceClean_seg n g pre ['\n'] (hwf g (List.mem_cons_self g []))
          hpre (by decide)]
      rfl
    | cons g2 gs2 =>
      rw [segsFromLines, segsFromLines, decorate, List.filterMap_cons]
      have harr : pre ++ segOfLines n g ++ ['\n'] =
          pre ++ (markerStr n ++ List.intercalate ['\n'] g) ++ ['\n', '\n'] := by
        simp [segOfLines, List.append_assoc]
      rw [harr, pieceClean_seg n g pre ['\n', '\n']
        (hwf g (List.mem_cons_self g _)) hpre (by decide)]
      have ih2 := ih (n + 1) ['\n'] (by decide)
        (fun g3 hg3 => hwf g3 (List.mem_cons_of_mem _ hg3))
      rw [segsFromLines] at ih2
      rw [ih2]

theorem parse_wellFormedResponse (groups : List (List GoStr))
    (hg : ∀ g ∈ groups, wfGroup g = true) :
    parseResponse (wellFormedResponse groups) = groups := by
  have heqfree : ∀ g ∈ groups, ∀ l ∈ g, '=' ∉ l := by
    intro g hgm l hl
    exact wfLine_eq_not_mem l ((wfGroup_spec g (hg g hgm)).2 l hl)
  rw [parseResponse_eq_filterMap, goSplit_eq_spec _ _ (by decide),
    wellFormedResponse,
    show List.intercalate fullSep (segsFromLines 1 groups) =
      [] ++ List.intercalate fullSep (segsFromLines 1 groups) from
      (List.nil_append _).symm,
    chainSplit (segsFromLines 1 groups) [] (by simp)
      (segsFromLines_eqFree groups 1 heqfree)]
  exact filterMap_decorate groups 1 [] (by simp) hg

/-! ## Lemmas about the batch partition -/

theorem goChunks_nil : goChunks [] = [] := by
  rw [goChunks]

theorem goChunks_cons (c : Subtitle) (rest : List Subtitle) :
    goChunks (c :: rest) =
      (c :: rest).take 20 :: goChunks (List.drop 20 (c :: rest)) := by
  rw [goChunks]

theorem goChunks_flatten_aux (fuel : Nat) : ∀ (l : List Subtitle),
    l.length ≤ fuel → (goChunks l).flatten = l := by
  induction fuel with
  | zero =>
    intro l hl
    rw [List.length_eq_zero.mp (Nat.le_zero.mp hl), goChunks_nil]
    rfl
  | succ fuel ih =>
    intro l hl
    match l with
    | [] => rw [goChunks_nil]; rfl
    | c :: rest =>
      rw [goChunks_cons, List.flatten_cons,
        ih (List.drop 20 (c :: rest)) (by simp at hl ⊢; omega)]
      exact List.take_append_drop 20 (c :: rest)

theorem goChunks_flatten (l : List Subtitle) : (goChunks l).flatten = l :=
  goChunks_flatten_aux l.length l le_rfl

theorem goChunks_length_aux (fuel : Nat) : ∀ (l : List Subtitle),
    l.length ≤ fuel → (goChunks l).length = (l.length + 19) / 20 := by
  induction fuel with
  | zero =>
    intro l hl
    rw [List.length_eq_zero.mp (Nat.le_zero.mp hl), goChunks_nil]
    rfl
  | succ fuel ih =>
    intro l hl
    match l with
    | [] => rw [goChunks_nil]; rfl
    | c :: rest =>
      rw [goChunks_cons, List.length_cons,
        ih (List.drop 20 (c :: rest)) (by simp at hl ⊢; omega)]
      simp only [List.length_drop, List.length_cons]
      omega

theorem goChunks_length (l : List Subtitle) :
    (goChunks l).length = (l.length + 19) / 20 :=
  goChunks_length_aux l.length l le_rfl

theorem goChunks_sizes_aux (fuel : Nat) : ∀ (l : List Subtitle),
    l.length ≤ fuel → ∀ c ∈ goChunks l, c.length ≤ 20 ∧ c ≠ [] := by
  induction fuel with
  | zero =>
    intro l hl c hc
    rw [List.length_eq_zero.mp (Nat.le_zero.mp hl), goChunks_nil] at hc
    simp at hc
  | succ fuel ih =>
    intro l hl c hc
    match l with
    | [] => rw [goChunks_nil] at hc; simp at hc
    | x :: rest =>
      rw [goChunks_cons] at hc
      rcases List.mem_cons.mp hc with h | h
      · subst h
        constructor
        · simp
        · simp [List.take_cons]
      · exact ih (List.drop 20 (x :: rest)) (by simp at hl ⊢; omega) c h

theorem goChunks_sizes (l : List Subtitle) :
    ∀ c ∈ goChunks l, c.length ≤ 20 ∧ c ≠ [] :=
  goChunks_sizes_aux l.length l le_rfl

theorem goChunks_place_aux (fuel : Nat) : ∀ (l : List Subtitle),
    l.length ≤ fuel → ∀ i, i < l.length →
      ((goChunks l).getD (i / 20) []).getD (i % 20) default = l.getD i default := by
  induction fuel with
  | zero =>
    intro l hl i hi
    rw [List.length_eq_zero.mp (Nat.le_zero.mp hl)] at hi
    simp at hi
  | succ fuel ih =>
    intro l hl i hi
    match l with
    | [] => simp at hi
    | c :: rest =>
      rw [goChunks_cons]
      by_cases h20 : i < 20
      · rw [Nat.div_eq_of_lt h20, Nat.mod_eq_of_lt h20]
        simp only [List.getD_cons_zero]
        rw [List.getD_eq_getElem?_getD, List.getD_eq_getElem?_getD,
          List.getElem?_take]
        simp [h20]
      · have hi20 : 20 ≤ i := Nat.le_of_not_lt h20
        have hdiv : i / 20 = (i - 20) / 20 + 1 := by omega
        have hmod : i % 20 = (i - 20) % 20 := by omega
        rw [hdiv, hmod, List.getD_cons_succ,
          ih (List.drop 20 (c :: rest)) (by simp at hl ⊢; omega) (i - 20)
            (by simp at hi ⊢; omega)]
        rw [List.getD_eq_getElem?_getD, List.getD_eq_getElem?_getD,
          List.getElem?_drop]
        congr 2
        omega

theorem goChunks_place (l : List Subtitle) (i : Nat) (hi : i < l.length) :
    ((goChunks l).getD (i / 20) []).getD (i % 20) default = l.getD i default :=
  goChunks_place_aux l.length l le_rfl i hi

/-! ## The all-success run -/

theorem serializeBatch_segments (batch : List Subtitle) (hne : batch ≠ [])
    (hfree : ∀ u ∈ batch, ∀ l ∈ u.text, '=' ∉ l) :
    (goSplit sentinel (serializeBatch batch)).length = batch.length := by
  have hsegs : ∀ s ∈ segsFromLines 1 (batch.map Subtitle.text), '=' ∉ s := by
    refine segsFromLines_eqFree _ 1 ?_
    intro g hg l hl
    obtain ⟨u, hu, rfl⟩ := List.mem_map.mp hg
    exact hfree u hu l hl
  have hsegne : segsFromLines 1 (batch.map Subtitle.text) ≠ [] := by
    match batch with
    | b :: bs => simp [segsFromLines]
  rw [goSplit_eq_spec _ _ (by decide), serializeBatch,
    show List.intercalate fullSep (segsFromLines 1 (batch.map Subtitle.text)) =
      [] ++ List.intercalate fullSep (segsFromLines 1 (batch.map Subtitle.text)) from
      (List.nil_append _).symm,
    chainSplit _ [] (by simp) hsegs,
    decorate_length _ _ hsegne, segsFromLines_length, List.length_map]

theorem tbi_okBackend (batch : List Subtitle) (hne : batch ≠ [])
    (hfree : ∀ u ∈ batch, ∀ l ∈ u.text, '=' ∉ l) (n : Nat) :
    ∃ res, translateBatchInternal okBackend batch n = (.ok res, n + 1) := by
  have hlen : ((goSplit sentinel (serializeBatch batch)).map
      (fun seg => [seg])).length = batch.length := by
    rw [List.length_map]
    exact serializeBatch_segments batch hne hfree
  refine ⟨fillTranslated batch
    ((goSplit sentinel (serializeBatch batch)).map (fun seg => [seg])), ?_⟩
  rw [translateBatchInternal, if_neg hne,
    show (4 : Nat) = 3 + 1 from rfl, tbiLoop]
  simp only [okBackend]
  rw [if_neg (by omega), if_pos hlen]

theorem tbOuterLoop_nil (backend : BackendFun) (fuel i : Nat)
    (acc : List Subtitle) (n : Nat) (d : List Nat) :
    tbOuterLoop backend fuel [] i acc n d = (.ok acc, n, d) := by
  cases fuel with
  | zero => rfl
  | succ fuel => rw [tbOuterLoop, if_pos rfl]

theorem translateBatch_okBackend (batch : List Subtitle) (hne : batch ≠ [])
    (h20 : batch.length ≤ 20)
    (hfree : ∀ u ∈ batch, ∀ l ∈ u.text, '=' ∉ l) (n : Nat) (delays : List Nat) :
    ∃ res, translateBatch okBackend batch n delays = (.ok res, n + 1, delays) := by
  obtain ⟨res, hres⟩ := tbi_okBackend batch hne hfree n
  match batch, hne with
  | b :: bs, _ =>
    refine ⟨res, ?_⟩
    rw [translateBatch, List.length_cons, tbOuterLoop, if_neg (by simp)]
    have htake : (b :: bs).take 20 = b :: bs := List.take_of_length_le h20
    dsimp only
    rw [htake, show (10 : Nat) = 9 + 1 from rfl, tbAttemptLoop, hres]
    dsimp only
    rw [List.drop_eq_nil_of_le h20, tbOuterLoop_nil]
    simp

theorem trOuterLoop_okBackend : ∀ (fuel : Nat) (rem : List Subtitle),
    rem.length ≤ fuel → (∀ u ∈ rem, ∀ l ∈ u.text, '=' ∉ l) →
    ∀ (i : Nat) (acc : List Subtitle) (n : Nat),
      ∃ res, trOuterLoop okBackend fuel rem i acc n [] =
        (.ok res, n + (rem.length + 19) / 20, []) := by
  intro fuel
  induction fuel with
  | zero =>
    intro rem hrem _ i acc n
    rw [List.length_eq_zero.mp (Nat.le_zero.mp hrem)]
    exact ⟨acc, by rw [trOuterLoop]; simp⟩
  | succ fuel ih =>
    intro rem hrem hfree i acc n
    match rem with
    | [] => exact ⟨acc, by rw [trOuterLoop, if_pos rfl]; simp⟩
    | r :: rest =>
      have hbne : (r :: rest).take 20 ≠ [] := by simp [List.take_cons]
      have hb20 : ((r :: rest).take 20).length ≤ 20 := by
        simp
      have hbfree : ∀ u ∈ (r :: rest).take 20, ∀ l ∈ u.text, '=' ∉ l :=
        fun u hu => hfree u (List.mem_of_mem_take hu)
      obtain ⟨res1, hres1⟩ :=
        translateBatch_okBackend _ hbne hb20 hbfree n []
      obtain ⟨res2, hres2⟩ := ih (List.drop 20 (r :: rest))
        (by simp at hrem ⊢; omega)
        (fun u hu => hfree u (List.mem_of_mem_drop hu)) (i + 20) (acc ++ res1)
        (n + 1)
      refine ⟨res2, ?_⟩
      rw [trOuterLoop, if_neg (by simp)]
      dsimp only
      rw [hres1]
      dsimp only
      rw [hres2]
      have : n + 1 + ((List.drop 20 (r :: rest)).length + 19) / 20 =
          n + ((r :: rest).length + 19) / 20 := by
        simp only [List.length_drop, List.length_cons]
        omega
      rw [this]

theorem translateGo_okBackend (units : List Subtitle)
    (hfree : ∀ u ∈ units, ∀ l ∈ u.text, '=' ∉ l) :
    ∃ res, translateGo okBackend units =
      (.ok res, (units.length + 19) / 20, []) := by
  obtain ⟨res, hres⟩ :=
    trOuterLoop_okBackend units.length units le_rfl hfree 0 [] 0
  exact ⟨res, by rw [translateGo, hres, Nat.zero_add]⟩

/-! ## Counting `'['` characters in the serialized prompt -/

theorem count_markerStr (n : Nat) : countChar '[' (markerStr n) = 1 := by
  have h1 : (natDigits n).count '[' = 0 := by
    rw [List.count_eq_zero]
    intro hm
    exact absurd (natDigits_digits n '[' hm) (by decide)
  simp [markerStr, countChar, List.count_cons, List.count_append, h1]

theorem count_intercalate_nl : ∀ (g : List GoStr),
    countChar '[' (List.intercalate ['\n'] g) = (g.map (countChar '[')).sum := by
  intro g
  induction g with
  | nil => simp [List.intercalate, countChar]
  | cons l ls ih =>
    cases ls with
    | nil => rw [intercalate_single]; simp [countChar]
    | cons l2 ls2 =>
      rw [intercalate_cons2, countChar, List.count_append, List.count_append]
      rw [countChar] at ih
      rw [ih]
      simp [countChar]

theorem count_segsFromLines : ∀ (gs : List (List GoStr)) (m : Nat),
    countChar '[' (List.intercalate fullSep (segsFromLines m gs)) =
      gs.length + (gs.map (fun g => (g.map (countChar '[')).sum)).sum := by
  intro gs
  induction gs with
  | nil => intro m; simp [segsFromLines, List.intercalate, countChar]
  | cons g gs ih =>
    intro m
    cases gs with
    | nil =>
      rw [segsFromLines, segsFromLines, intercalate_single, segOfLines,
        countChar, List.count_append, List.count_append]
      have h1 := count_markerStr m
      have h2 := count_intercalate_nl g
      rw [countChar] at h1 h2
      rw [h1, h2]
      simp
    | cons g2 gs2 =>
      rw [segsFromLines]
      rw [show segsFromLines (m + 1) (g2 :: gs2) =
        segOfLines (m + 1) g2 :: segsFromLines (m + 2) gs2 from rfl]
      rw [intercalate_cons2, countChar, List.count_append, List.count_append]
      have hsep : fullSep.count '[' = 0 := by decide
      have hseg : (segOfLines m g).count '[' =
          1 + (g.map (countChar '[')).sum := by
        rw [segOfLines, List.count_append, List.count_append]
        have h1 := count_markerStr m
        have h2 := count_intercalate_nl g
        rw [countChar] at h1 h2
        rw [h1, h2]
        simp
      have hrec := ih (m + 1)
      rw [show segsFromLines (m + 1) (g2 :: gs2) =
        segOfLines (m + 1) g2 :: segsFromLines (m + 2) gs2 from rfl] at hrec
      rw [countChar] at hrec
      rw [hseg, hsep, hrec]
      simp only [List.map_cons, List.sum_cons, List.length_cons]
      omega

theorem expectedCount_serializeBatch (units : List Subtitle) :
    expectedCountOf (serializeBatch units) = units.length + bracketTotal units := by
  rw [expectedCountOf, serializeBatch, count_segsFromLines _ 1, bracketTotal,
    List.length_map, List.map_map]
  rfl

/-! ## The success path of `translateBatchInternal` -/

theorem fillTranslated_length : ∀ (subs : List Subtitle) (gs : List (List GoStr)),
    gs.length = subs.length → (fillTranslated subs gs).length = subs.length := by
  intro subs
  induction subs with
  | nil => intro gs _; rfl
  | cons s ss ih =>
    intro gs h
    match gs with
    | [] => simp at h
    | g :: gs =>
      rw [fillTranslated, List.length_cons, List.length_cons,
        ih gs (by simpa using h)]

theorem fillTranslated_getD : ∀ (subs : List Subtitle) (gs : List (List GoStr)),
    gs.length = subs.length → ∀ i, i < subs.length →
      (fillTranslated subs gs).getD i default =
        { subs.getD i default with translated := gs.getD i [] } := by
  intro subs
  induction subs with
  | nil => intro gs _ i hi; simp at hi
  | cons s ss ih =>
    intro gs h i hi
    match gs with
    | [] => simp at h
    | g :: gs =>
      rw [fillTranslated]
      cases i with
      | zero => simp
      | succ i =>
        simp only [List.getD_cons_succ]
        exact ih gs (by simpa using h) i (by simpa using hi)

theorem tbiLoop_ok : ∀ (remaining : Nat) (backend : BackendFun)
    (subs : List Subtitle) (n n2 : Nat) (res : List Subtitle),
    tbiLoop backend subs remaining n = (.ok res, n2) →
    ∃ gs, gs.length = subs.length ∧ res = fillTranslated subs gs := by
  intro remaining
  induction remaining with
  | zero =>
    intro backend subs n n2 res h
    rw [tbiLoop] at h
    simp at h
  | succ r ih =>
    intro backend subs n n2 res h
    rw [tbiLoop] at h
    rcases hb : backend n (serializeBatch subs) with ⟨rb, nb⟩
    rw [hb] at h
    match rb with
    | .err e =>
      dsimp only at h
      split at h
      · simp at h
      · exact ih backend subs nb n2 res h
    | .ok clean =>
      dsimp only at h
      split at h
      · split at h
        · simp at h
        · exact ih backend subs nb n2 res h
      · split at h
        · rename_i hlen
          simp only [GoResult.ok.injEq, Prod.mk.injEq] at h
          exact ⟨clean, hlen, h.1.symm⟩
        · exact ih backend subs nb n2 res h

theorem translateBatchInternal_ok (backend : BackendFun) (subs : List Subtitle)
    (n n2 : Nat) (res : List Subtitle)
    (h : translateBatchInternal backend subs n = (.ok res, n2)) :
    ∃ gs, gs.length = subs.length ∧ res = fillTranslated subs gs := by
  rw [translateBatchInternal] at h
  split at h
  · rename_i hnil
    subst hnil
    simp only [GoResult.ok.injEq, Prod.mk.injEq] at h
    exact ⟨[], rfl, h.1.symm⟩
  · exact tbiLoop_ok 4 backend subs n n2 res h

/-! ## The insufficient-credits (402) path -/

theorem orLoop_402 (text : GoStr) (n : Nat) :
    orLoop env402 text 10 n [] =
      (.err (toG "insufficient credits: " ++ toG "error code: 402, insufficient funds"),
        n + 1) := by
  rw [show (10 : Nat) = 9 + 1 from rfl, orLoop]
  dsimp only [env402]
  rw [if_neg (by decide), if_pos (by decide)]

theorem orBackend_402 : ∀ (m : Nat) (text : GoStr),
    orBackend env402 m text =
      (.err (toG "insufficient credits: " ++ toG "error code: 402, insufficient funds"),
        m + 1) :=
  fun m text => orLoop_402 text m

theorem tbiLoop_all_err (backend : BackendFun) (e : GoStr)
    (hB : ∀ m text, backend m text = (.err e, m + 1)) (subs : List Subtitle) :
    ∀ (r n : Nat), tbiLoop backend subs (r + 1) n = (.err e, n + (r + 1)) := by
  intro r
  induction r with
  | zero =>
    intro n
    rw [tbiLoop, hB n (serializeBatch subs)]
    dsimp only
    rw [if_pos rfl]
  | succ r ih =>
    intro n
    rw [tbiLoop, hB n (serializeBatch subs)]
    dsimp only
    rw [if_neg (by omega), ih (n + 1)]
    have harith : n + 1 + (r + 1) = n + (r + 1 + 1) := by omega
    rw [harith]

theorem tbi_all_err (backend : BackendFun) (e : GoStr)
    (hB : ∀ m text, backend m text = (.err e, m + 1)) (subs : List Subtitle)
    (hne : subs ≠ []) (n : Nat) :
    translateBatchInternal backend subs n = (.err e, n + 4) := by
  rw [translateBatchInternal, if_neg hne]
  exact tbiLoop_all_err backend e hB subs 3 n

theorem translateBatch_402 (subs : List Subtitle) (hne : subs ≠ [])
    (n : Nat) (delays : List Nat) :
    translateBatch (orBackend env402) subs n delays =
      (.err (msgBatchRange 0 (min 20 subs.length)
          (toG "insufficient credits: " ++ toG "error code: 402, insufficient funds")),
        n + 4, delays) := by
  match subs, hne with
  | s :: rest, _ =>
    rw [translateBatch, List.length_cons, tbOuterLoop, if_neg (by simp)]
    dsimp only
    rw [show (10 : Nat) = 9 + 1 from rfl, tbAttemptLoop,
      tbi_all_err (orBackend env402) _ orBackend_402 _ (by simp [List.take_cons]) n]
    dsimp only
    rw [if_neg (by decide), Nat.zero_add, List.length_take]
    dsimp only
    rw [List.length_cons]

/-! ## The backoff cap -/

theorem rateLimitBackoff_min (k : Nat) :
    rateLimitBackoffDur k = min (2 ^ k * 1000000000) 30000000000 := by
  rw [rateLimitBackoffDur]
  generalize 2 ^ k * 1000000000 = m
  by_cases hm : m > 30000000000
  · rw [if_pos hm, Nat.min_eq_right (by omega)]
  · rw [if_neg hm, Nat.min_eq_left (by omega)]

/-! ## Claim theorems -/

/-- C1: the claim says `Translate` returns a same-length, fully
populated list or an error, and that retry exhaustion must surface as
an error rather than a silently skipped batch.  The code violates
this: with a backend that fails every call with a rate-limit (`429`)
message, the ten-attempt retry loop of `translateBatch` exhausts and
falls through without appending the batch or returning an error, so
`Translate` of a one-element list returns `ok []` — shorter than the
input, with no error — after 40 backend calls and ten backoff
sleeps. -/
theorem translate_silent_drop_on_rate_limit_exhaustion :
    translateGo b429 [subFix1] =
      (.ok [], 40, (List.range 10).map (fun k => 1000000000 * 2 ^ k)) ∧
    ([] : List Subtitle).length < [subFix1].length :=
  ⟨by decide, by decide⟩

/-- C2 counterexample: the per-batch validation does not derive the
expected count from the batch size.  For the one-unit batch whose
source line is `"[music]"`, the serialized prompt contains two `'['`
characters, so a response that the shared parser resolves to exactly
one line-group is rejected by the LM Studio validator with a
count-mismatch error instead of being accepted. -/
theorem lmstudio_bracket_count_rejects_music_cue :
    parseResponse (wellFormedResponse [[toG "La musique"]]) = [[toG "La musique"]] ∧
    lmClean (serializeBatch [subMusic]) (wellFormedResponse [[toG "La musique"]]) =
      .err (toG "expected 2 translations but got 1") :=
  ⟨by decide, by decide⟩

/-- C2 amended: the expected count used by the per-batch validation is
the number of `'['` characters counted in the serialized prompt text,
which equals the batch size plus the number of `'['` characters in the
units' own source lines — so a bracket-free batch is validated against
its size, while a batch containing cues such as `"[music]"` is
validated against a strictly larger count, not identically. -/
theorem expectedCount_eq_batch_size_plus_brackets (units : List Subtitle) :
    expectedCountOf (serializeBatch units) = units.length + bracketTotal units :=
  expectedCount_serializeBatch units

/-- C3 counterexample: in the rate-limit retry path of `translateBatch`
the backoff slept before retry attempt `k = 5` is `2^5` seconds
(32 s), not `min(1s * 2^5, 30 s) = 30 s`: the delay trace of a run in
which every attempt is rate-limited records 32000000000 ns at index
5. -/
theorem batch_backoff_exceeds_cap_at_attempt_five :
    (translateGo b429 [subFix2]).2.2[5]? = some 32000000000 ∧
    min (1000000000 * 2 ^ 5) (30 * 1000000000) = 30000000000 :=
  ⟨by decide, by decide⟩

/-- C3 amended: the backoff in `translateBatch`'s rate-limit retry
path is `1s * 2^k` with no cap — a fully rate-limited run sleeps
1, 2, 4, …, 512 seconds over its ten attempts — while the claimed
30-second cap belongs to the separate `rateLimitBackoff` helper used
by the Google AI adapter, whose delay is `min(2^k s, 30 s)` for every
attempt number `k`. -/
theorem batch_backoff_uncapped_helper_capped :
    (translateGo b429 [subFix2]).2.2 = (List.range 10).map batchDelay ∧
    ∀ k : Nat, rateLimitBackoffDur k = min (2 ^ k * 1000000000) 30000000000 :=
  ⟨by decide, rateLimitBackoff_min⟩

/-- C4 counterexample: after an insufficient-credits (402) error a
second adapter invocation does occur.  With a chat oracle that always
fails with `error code: 402`, the OpenRouter adapter itself does not
retry, but the enclosing `translateBatchInternal` loop retries every
error: the batch call performs 4 chat invocations before failing
(though it sleeps no backoff delay). -/
theorem second_adapter_call_after_402 :
    translateBatch (orBackend env402) [subFix1] 0 [] =
      (.err (msgBatchRange 0 1 (toG "insufficient credits: " ++
        toG "error code: 402, insufficient funds")), 4, []) ∧
    1 < 4 :=
  ⟨by decide, by decide⟩

/-- C4 amended: on an insufficient-credits (402) error the adapter's
own retry loop returns after a single chat call, and the
`translateBatch` loop neither sleeps nor retries, because the error is
not classified as a rate limit; but the intermediate
`translateBatchInternal` loop retries every error, so for every
non-empty batch exactly 4 adapter invocations occur before the batch
call fails, with no backoff delay recorded. -/
theorem insufficient_credits_four_adapter_calls (subs : List Subtitle)
    (hne : subs ≠ []) (n : Nat) (delays : List Nat) :
    (∀ m text, orBackend env402 m text =
      (.err (toG "insufficient credits: " ++
        toG "error code: 402, insufficient funds"), m + 1)) ∧
    translateBatch (orBackend env402) subs n delays =
      (.err (msgBatchRange 0 (min 20 subs.length)
        (toG "insufficient credits: " ++
          toG "error code: 402, insufficient funds")), n + 4, delays) :=
  ⟨orBackend_402, translateBatch_402 subs hne n delays⟩

/-- C4 witness: the amended theorem applied to a one-unit batch. -/
theorem insufficient_credits_four_adapter_calls_witness :
    (∀ m text, orBackend env402 m text =
      (.err (toG "insufficient credits: " ++
        toG "error code: 402, insufficient funds"), m + 1)) ∧
    translateBatch (orBackend env402) [subFix2] 0 [] =
      (.err (msgBatchRange 0 (min 20 [subFix2].length)
        (toG "insufficient credits: " ++
          toG "error code: 402, insufficient funds")), 0 + 4, []) :=
  insufficient_credits_four_adapter_calls [subFix2] (by decide) 0 []

/-- C5: with batch size 20, unit `i` is placed in chunk `i / 20` at
offset `i % 20`, the chunks are contiguous slices in input order
(flattening restores the input), every chunk holds at most 20 units,
the number of chunks is `⌈N/20⌉`, and a run in which every batch
succeeds on its first attempt makes exactly `⌈N/20⌉` network-level
batch calls and returns success. -/
theorem translate_partition_and_call_count (units : List Subtitle)
    (hfree : ∀ u ∈ units, ∀ l ∈ u.text, '=' ∉ l) :
    (goChunks units).length = (units.length + 19) / 20 ∧
    (goChunks units).flatten = units ∧
    (∀ c ∈ goChunks units, c.length ≤ 20) ∧
    (∀ i, i < units.length →
      ((goChunks units).getD (i / 20) []).getD (i % 20) default =
        units.getD i default) ∧
    ∃ res, translateGo okBackend units =
      (.ok res, (units.length + 19) / 20, []) :=
  ⟨goChunks_length units, goChunks_flatten units,
    fun c hc => (goChunks_sizes units c hc).1,
    fun i hi => goChunks_place units i hi,
    translateGo_okBackend units hfree⟩

/-- C5 witness: the partition and call-count theorem applied to the
spec's 45-unit scenario (3 batches of 20, 20 and 5; 3 calls). -/
theorem translate_partition_and_call_count_witness :
    (goChunks fix45).length = (fix45.length + 19) / 20 ∧
    (goChunks fix45).flatten = fix45 ∧
    (∀ c ∈ goChunks fix45, c.length ≤ 20) ∧
    (∀ i, i < fix45.length →
      ((goChunks fix45).getD (i / 20) []).getD (i % 20) default =
        fix45.getD i default) ∧
    ∃ res, translateGo okBackend fix45 =
      (.ok res, (fix45.length + 19) / 20, []) :=
  translate_partition_and_call_count fix45 (by decide)

/-- C6: round trip of serialization and response parsing — for a batch
of `K` units and a synthetic well-formed response of `K`
`[n]`-marked, `===SUBTITLE===`-separated segments (non-empty
line-groups whose lines are non-empty, trimmed at both ends, and free
of newlines and of the sentinel's `'='` character), the shared
response-parsing step returns exactly the `K` line-groups, in the same
order as the input units. -/
theorem parse_roundtrip (units : List Subtitle) (groups : List (List GoStr))
    (hlen : groups.length = units.length)
    (hg : ∀ g ∈ groups, wfGroup g = true) :
    parseResponse (wellFormedResponse groups) = groups ∧
    (parseResponse (wellFormedResponse groups)).length = units.length := by
  have h := parse_wellFormedResponse groups hg
  exact ⟨h, by rw [h, hlen]⟩

/-- C6 witness: the round trip applied to a two-unit batch with a
one-line and a two-line translated group. -/
theorem parse_roundtrip_witness :
    parseResponse (wellFormedResponse grpFix) = grpFix ∧
    (parseResponse (wellFormedResponse grpFix)).length =
      [subFix1, subFix2].length :=
  parse_roundtrip [subFix1, subFix2] grpFix (by decide) (by decide)

/-- C7: rate limiter contract — a service constructed with RPM 0 has
no limiter and its wait returns success immediately regardless of the
cancellation state; with RPM > 0 the configured interval is 60 seconds
divided by RPM (in nanoseconds); and a wait on a configured limiter
returns the context's cancellation error when the context ends before
the next tick, succeeding otherwise. -/
theorem rate_limiter_contract (cfg : ServiceConfig) (s : ServiceState)
    (hok : newService cfg = .ok s) :
    (cfg.rpm = 0 → s.limiterInterval = none ∧
      ∀ d, waitForRateLimit s.limiterInterval d = .ok ()) ∧
    (0 < cfg.rpm → s.limiterInterval = some (60000000000 / cfg.rpm)) ∧
    (∀ interval, waitForRateLimit (some interval) true = .err ctxCanceledMsg ∧
      waitForRateLimit (some interval) false = .ok ()) := by
  have hs : s.limiterInterval =
      if cfg.rpm > 0 then some (60000000000 / cfg.rpm) else none := by
    rw [newService] at hok
    split at hok
    · simp at hok
    · rcases cfg with ⟨apiKey, baseURL, model, verbose, backend, rpm⟩
      cases backend <;>
        (simp only [GoResult.ok.injEq] at hok; rw [← hok])
  refine ⟨?_, ?_, ?_⟩
  · intro h0
    rw [hs, if_neg (by omega)]
    exact ⟨rfl, fun d => rfl⟩
  · intro hpos
    rw [hs, if_pos hpos]
  · intro interval
    exact ⟨rfl, rfl⟩

/-- C7 witness: the contract applied to an RPM-0 configuration and to
an RPM-60 configuration (whose interval is one second). -/
theorem rate_limiter_contract_witness :
    ((cfg0Fix.rpm = 0 → s0Fix.limiterInterval = none ∧
      ∀ d, waitForRateLimit s0Fix.limiterInterval d = .ok ()) ∧
    (0 < cfg0Fix.rpm → s0Fix.limiterInterval = some (60000000000 / cfg0Fix.rpm)) ∧
    (∀ interval, waitForRateLimit (some interval) true = .err ctxCanceledMsg ∧
      waitForRateLimit (some interval) false = .ok ())) ∧
    ((cfg60Fix.rpm = 0 → s60Fix.limiterInterval = none ∧
      ∀ d, waitForRateLimit s60Fix.limiterInterval d = .ok ()) ∧
    (0 < cfg60Fix.rpm → s60Fix.limiterInterval = some (60000000000 / cfg60Fix.rpm)) ∧
    (∀ interval, waitForRateLimit (some interval) true = .err ctxCanceledMsg ∧
      waitForRateLimit (some interval) false = .ok ())) :=
  ⟨rate_limiter_contract cfg0Fix s0Fix (by decide),
    rate_limiter_contract cfg60Fix s60Fix (by decide)⟩

/-- C8: the claim says an LM Studio service constructed with an empty
credential and empty base URL succeeds and its translate calls use the
loopback default.  Construction does succeed and the HTTP client is
configured with `http://localhost:1234/v1`, but `NewService` assigned
the default to a local copy of the configuration after the service
struct had already stored the original, so the stored config's base
URL is still empty and `translateWithLMStudio` rejects every call with
"base URL must be specified for LM Studio backend" instead of using
the default. -/
theorem lmstudio_default_base_url_lost :
    newService lmCfgFix = .ok lmStateFix ∧
    lmStateFix.clientBaseURL = lmStudioDefaultBaseURL ∧
    lmStudioPreflight lmStateFix =
      .err (toG "base URL must be specified for LM Studio backend") :=
  ⟨by decide, by decide, by decide⟩

/-- C9: a successful `translateBatchInternal` call returns a new
snapshot: same length as the input, each unit's `Index`, `Start`,
`End` and `Text` equal to those of the corresponding input unit, and
only `Translated` newly set — the result is exactly the input with the
adapter's line-groups filled in position by position (and, the
embedding being a pure function, the caller's list is not mutated). -/
theorem translate_batch_internal_preserves_fields (backend : BackendFun)
    (subs res : List Subtitle) (n n2 : Nat)
    (h : translateBatchInternal backend subs n = (.ok res, n2)) :
    res.length = subs.length ∧
    (∃ gs, gs.length = subs.length ∧ res = fillTranslated subs gs) ∧
    ∀ i, i < subs.length →
      (res.getD i default).index = (subs.getD i default).index ∧
      (res.getD i default).startTime = (subs.getD i default).startTime ∧
      (res.getD i default).endTime = (subs.getD i default).endTime ∧
      (res.getD i default).text = (subs.getD i default).text := by
  obtain ⟨gs, hlen, rfl⟩ := translateBatchInternal_ok backend subs n n2 res h
  refine ⟨fillTranslated_length subs gs hlen, ⟨gs, hlen, rfl⟩, ?_⟩
  intro i hi
  rw [fillTranslated_getD subs gs hlen i hi]
  exact ⟨rfl, rfl, rfl, rfl⟩

/-- C9 witness: the field-preservation theorem applied to a concrete
successful run. -/
theorem translate_batch_internal_preserves_fields_witness :
    c9resFix.length = [subFix1].length ∧
    (∃ gs, gs.length = [subFix1].length ∧ c9resFix = fillTranslated [subFix1] gs) ∧
    ∀ i, i < [subFix1].length →
      (c9resFix.getD i default).index = ([subFix1].getD i default).index ∧
      (c9resFix.getD i default).startTime = ([subFix1].getD i default).startTime ∧
      (c9resFix.getD i default).endTime = ([subFix1].getD i default).endTime ∧
      (c9resFix.getD i default).text = ([subFix1].getD i default).text :=
  translate_batch_internal_preserves_fields okBackend [subFix1] c9resFix 0 1
    (by decide)

/-- C10 counterexample: a unit with no text lines and no translation
is written as an entry carrying only its index and timestamp lines —
the written file does not contain non-empty text for every unit. -/
theorem write_empty_text_entry :
    chosenText subEmptyText = [] ∧
    writeSrt [subEmptyText] = toG "3\n00:00:05,000 --> 00:00:06,000\n" :=
  ⟨by decide, by decide⟩

/-- C10 amended: the writer emits one entry per unit in list order —
index line, timestamp line, then text lines — with a blank line
between consecutive entries; a unit whose `Translated` is empty is
written with its original `Text` lines, and the entry's text portion
is non-empty whenever the unit has any text or translation lines. -/
theorem write_srt_entries (subs : List Subtitle) :
    writeSrt subs = List.intercalate ['\n'] (subs.map srtEntry) ∧
    ∀ u ∈ subs, (u.translated = [] → chosenText u = u.text) ∧
      (u.text ≠ [] ∨ u.translated ≠ [] → chosenText u ≠ []) := by
  constructor
  · induction subs with
    | nil => simp [writeSrt, List.intercalate]
    | cons s rest ih =>
      cases rest with
      | nil => rw [writeSrt, List.map_cons, List.map_nil, intercalate_single]
      | cons s2 rest2 =>
        rw [writeSrt, List.map_cons, List.map_cons, intercalate_cons2,
          ← List.map_cons, ← ih]
  · intro u _
    constructor
    · intro h0
      rw [chosenText, if_neg (by simp [h0])]
    · intro hne
      rw [chosenText]
      split
      · rename_i ht; exact ht
      · rename_i ht
        rcases hne with h | h
        · exact h
        · exact absurd h ht

/-- C10 witness: the amended writer theorem applied to a list holding
an untranslated unit and a unit with no text. -/
theorem write_srt_entries_witness :
    writeSrt [subFix1, subEmptyText] =
      List.intercalate ['\n'] ([subFix1, subEmptyText].map srtEntry) ∧
    ∀ u ∈ [subFix1, subEmptyText],
      (u.translated = [] → chosenText u = u.text) ∧
      (u.text ≠ [] ∨ u.translated ≠ [] → chosenText u ≠ []) :=
  write_srt_entries [subFix1, subEmptyText]

end SRTran
